import Mathlib

/-!
Verification of the chunk planner `get_batch` in
`sotodlib/io/g3tsmurf_utils.py` and of the batch driver / query builder in
`sotodlib/site_pipeline/make_level3_hk.py`.

The embedding models machine integers as `Nat`.  Python's `a // b` is `Nat`
division, `int(np.ceil(a / b))` on nonnegative integers with `b > 0` is
`ceilDiv a b`, Python ranges and sample tuples `(lo, hi)` are pairs
`(Nat × Nat)` denoting the half-open interval `[lo, hi)`, and Python strings
are `List Char`.  The RAM limit (a Python float used only through
`int(ram_limit // 4)`) is modelled as a `Nat` number of bytes.
-/

/-- `int(np.ceil(a / b))` for naturals with `b > 0`. -/
def ceilDiv (a b : Nat) : Nat := (a + b - 1) / b

/-- The optional chunking controls of `get_batch`, in the order they appear
in the Python signature.  `None` is `none`. -/
structure ChunkArgs where
  ram_limit : Option Nat
  n_det_chunks : Option Nat
  n_samp_chunks : Option Nat
  n_dets : Option Nat
  n_samps : Option Nat
  det_chunks : Option (List (Nat × Nat))
  samp_chunks : Option (List (Nat × Nat))
deriving Repr, DecidableEq

/-- The `while n_dets == 0` search of `get_batch`: starting from sample chunk
count `S`, keep incrementing `S` while `pts_limit // (obs_samps // S) == 0`.
`fuel` bounds the number of iterations (the Python loop is unbounded; the
termination theorem shows `fuel = obs_samps` always suffices when
`pts_limit ≥ 1` and `obs_samps ≥ 1`). -/
def ramFind (pts obs_samps : Nat) : Nat → Nat → Nat
  | 0, S => S
  | fuel + 1, S => if pts / (obs_samps / S) = 0 then ramFind pts obs_samps fuel (S + 1) else S

/-- The chunk lists `[range(i*n, min((i+1)*n, total)) for i in range(c)]`
built by `get_batch` (same shape for detector ranges and sample tuples). -/
def buildChunks (n c total : Nat) : List (Nat × Nat) :=
  (List.range c).map (fun i => (i * n, min ((i + 1) * n) total))

/-- The value of the python local `n_samp_chunks` when the `while` search of
the `ram_limit` branch finishes (fuel `obs_samps` suffices, see
`ramFind_spec`). -/
def ram_n_samp_chunks (ram_limit obs_samps : Nat) : Nat :=
  ramFind (ram_limit / 4) obs_samps obs_samps 1

/-- The value of the python local `n_samps` when the `while` search of the
`ram_limit` branch finishes: `obs_samps // n_samp_chunks`. -/
def ram_n_samps (ram_limit obs_samps : Nat) : Nat :=
  obs_samps / ram_n_samp_chunks ram_limit obs_samps

/-- The value of the python local `n_dets` when the `while` search of the
`ram_limit` branch finishes: `pts_limit // n_samps`. -/
def ram_n_dets (ram_limit obs_samps : Nat) : Nat :=
  (ram_limit / 4) / ram_n_samps ram_limit obs_samps

/-- The controls produced by the `ram_limit` branch of `get_batch`:
`(n_det_chunks, n_samp_chunks, n_dets, n_samps)` after
`pts_limit = int(ram_limit // 4)`, the `while` search, and
`n_det_chunks = int(np.ceil(obs_dets / n_dets))`. -/
def ramControls (rl obs_dets obs_samps : Nat) : Nat × Nat × Nat × Nat :=
  (ceilDiv obs_dets (ram_n_dets rl obs_samps), ram_n_samp_chunks rl obs_samps,
    ram_n_dets rl obs_samps, ram_n_samps rl obs_samps)

/-- The sequential control-resolution block of `get_batch` (lines 161-193 of
`g3tsmurf_utils.py`), returning the final `(det_chunks, samp_chunks)` pair.
Each `if x is not None` of the source becomes a `match`; rebinding of the
Python locals becomes shadowing `let`s. -/
def get_batch_chunks (obs_dets obs_samps : Nat) (a : ChunkArgs) :
    List (Nat × Nat) × List (Nat × Nat) :=
  let c1 :=
    match a.ram_limit with
    | some rl =>
      let r := ramControls rl obs_dets obs_samps
      (some r.1, some r.2.1, some r.2.2.1, some r.2.2.2)
    | none => (a.n_det_chunks, a.n_samp_chunks, a.n_dets, a.n_samps)
  let d1 :=
    match c1.1 with
    | some c => (some (ceilDiv obs_dets c), some (buildChunks (ceilDiv obs_dets c) c obs_dets))
    | none => (c1.2.2.1, a.det_chunks)
  let s1 :=
    match c1.2.1 with
    | some c => (some (ceilDiv obs_samps c), some (buildChunks (ceilDiv obs_samps c) c obs_samps))
    | none => (c1.2.2.2, a.samp_chunks)
  let d2 :=
    match d1.1 with
    | some nd => some (buildChunks nd (ceilDiv obs_dets nd) obs_dets)
    | none => d1.2
  let s2 :=
    match s1.1 with
    | some ns => some (buildChunks ns (ceilDiv obs_samps ns) obs_samps)
    | none => s1.2
  (d2.getD [(0, obs_dets)], s2.getD [(0, obs_samps)])

/-- The yield loop of `get_batch` with `test=True`: outer loop over detector
chunks, inner loop over sample chunks, yielding the pairs in order. -/
def get_batch (obs_dets obs_samps : Nat) (a : ChunkArgs) :
    List ((Nat × Nat) × (Nat × Nat)) :=
  let p := get_batch_chunks obs_dets obs_samps a
  p.1.flatMap (fun det_chunk => p.2.map (fun samp_chunk => (det_chunk, samp_chunk)))

/-- `ChunkArgs` with every control absent. -/
def noControls : ChunkArgs := ⟨none, none, none, none, none, none, none⟩

/-- Checks that a list of half-open intervals tiles `[s, e)` contiguously:
each interval starts where the previous ended, is nonempty, and the last
ends at `e`. -/
def contiguousFromB : Nat → List (Nat × Nat) → Nat → Bool
  | s, [], e => s == e
  | s, (lo, hi) :: rest, e => s == lo && decide (lo < hi) && contiguousFromB hi rest e

/-- The partition invariant for a chunk list over `[0, total)`: contiguous
nonempty intervals in increasing order, pairwise disjoint, whose union is
exactly `[0, total)`. -/
def IsChunkPartition (total : Nat) (L : List (Nat × Nat)) : Prop :=
  contiguousFromB 0 L total = true ∧
  L.Pairwise (fun p q => p.2 ≤ q.1) ∧
  ∀ k, k < total ↔ ∃ p, p ∈ L ∧ p.1 ≤ k ∧ k < p.2

/-- The simplistic RAM cost of one yielded chunk: 4 bytes per
detector-sample point. -/
def chunkCost (p : (Nat × Nat) × (Nat × Nat)) : Nat :=
  (p.1.2 - p.1.1) * (p.2.2 - p.2.1) * 4

/-- The `for obs in obs_list` loop of `main` in `make_level3_hk.py`.  The
whole per-observation body (resolving metadata, building the housekeeping
AxisManager, saving it, adding the database entry) runs inside
`try: ... except Exception as e: logger.error(...); continue`, so it is
abstracted as one fallible computation `process`; a success appends the
observation with `true` (the `logger.info("saved: ...")` path), a raised
exception appends it with `false` (the `logger.error` path) and the loop
continues with the next observation. -/
def main_obs_loop {α : Type} (process : α → Except String Unit) : List α → List (α × Bool)
  | [] => []
  | obs :: rest =>
    match process obs with
    | Except.ok _ => (obs, true) :: main_obs_loop process rest
    | Except.error _ => (obs, false) :: main_obs_loop process rest

/-- The apostrophe character used to quote `obs_id` in the query text. -/
def quoteChar : Char := Char.ofNat 39

/-- Python's `t[4:-4]` on a character list. -/
def pySlice4 (t : List Char) : List Char :=
  (t.drop 4).take ((t.drop 4).length - 4)

/-- The query text built by `main` of `make_level3_hk.py` (lines 123-135),
modelled at the character level; the numeric bounds `min_ctime` and
`max_ctime` arrive already formatted as strings.  If `obs_id` is given the
query is `obs_id=='<obs_id>'`; otherwise fragments accumulate onto `"and "`
with each supplied filter followed by `" and "`, the result is sliced with
`[4:-4]`, and an empty result becomes `"1"`. -/
def tot_query (obs_id query_text min_ctime max_ctime : Option (List Char)) : List Char :=
  match obs_id with
  | some oid => "obs_id==".data ++ [quoteChar] ++ oid ++ [quoteChar]
  | none =>
    let t := "and ".data
    let t := match query_text with
      | some q => t ++ q ++ " and ".data
      | none => t
    let t := match min_ctime with
      | some m => t ++ "timestamp>=".data ++ m ++ " and ".data
      | none => t
    let t := match max_ctime with
      | some m => t ++ "timestamp<=".data ++ m ++ " and ".data
      | none => t
    let t := pySlice4 t
    if t = [] then "1".data else t

/-- The filters the claim says are conjoined when `obs_id` is absent, in
order: `query_text`, `timestamp>=min_ctime`, `timestamp<=max_ctime`,
keeping only the supplied ones. -/
def queryFilters (query_text min_ctime max_ctime : Option (List Char)) :
    List (List Char) :=
  (match query_text with | some q => [q] | none => []) ++
    (match min_ctime with | some m => ["timestamp>=".data ++ m] | none => []) ++
    (match max_ctime with | some m => ["timestamp<=".data ++ m] | none => [])

/-- The `" and "`-conjunction of a list of filters. -/
def joinAnd : List (List Char) → List Char
  | [] => []
  | [f] => f
  | f :: g :: rest => f ++ " and ".data ++ joinAnd (g :: rest)

/-- The query construction exactly as claim C10 states it: the plain
`" and "`-conjunction of the supplied filters, `"1"` when none are
supplied, `obs_id=='<obs_id>'` when `obs_id` is supplied. -/
def tot_query_spec (obs_id query_text min_ctime max_ctime : Option (List Char)) :
    List Char :=
  match obs_id with
  | some oid => "obs_id==".data ++ [quoteChar] ++ oid ++ [quoteChar]
  | none =>
    let fs := queryFilters query_text min_ctime max_ctime
    if fs = [] then "1".data else joinAnd fs

/-- The amended query description: the `[4:-4]` slice removes the leading
`"and "` but only the last four characters of the five-character trailing
separator `" and "`, so whenever at least one filter is supplied the
conjunction carries one trailing space. -/
def tot_query_amended (obs_id query_text min_ctime max_ctime : Option (List Char)) :
    List Char :=
  match obs_id with
  | some oid => "obs_id==".data ++ [quoteChar] ++ oid ++ [quoteChar]
  | none =>
    let fs := queryFilters query_text min_ctime max_ctime
    if fs = [] then "1".data else joinAnd fs ++ [' ']

theorem ceilDiv_pos (a b : Nat) (ha : 1 ≤ a) (hb : 1 ≤ b) : 1 ≤ ceilDiv a b := by
  unfold ceilDiv
  rw [Nat.le_div_iff_mul_le hb]
  omega

theorem ceilDiv_le_iff (a b c : Nat) (hc : 1 ≤ c) : ceilDiv a c ≤ b ↔ a ≤ b * c := by
  unfold ceilDiv
  rw [Nat.div_le_iff_le_mul_add_pred hc]
  have h := Nat.mul_comm b c
  omega

theorem le_mul_ceilDiv (a b : Nat) (hb : 1 ≤ b) : a ≤ ceilDiv a b * b :=
  (ceilDiv_le_iff a (ceilDiv a b) b hb).mp le_rfl

theorem ceilDiv_ceilDiv_le (a b : Nat) (ha : 1 ≤ a) (hb : 1 ≤ b) :
    ceilDiv a (ceilDiv a b) ≤ b := by
  rw [ceilDiv_le_iff a b (ceilDiv a b) (ceilDiv_pos a b ha hb), Nat.mul_comm]
  exact le_mul_ceilDiv a b hb

theorem ceilDiv_le_div_add_one (a b : Nat) (hb : 1 ≤ b) : ceilDiv a b ≤ a / b + 1 := by
  unfold ceilDiv
  rcases Nat.eq_zero_or_pos a with h | h
  · subst h
    have h0 : (0 + b - 1) / b = 0 := Nat.div_eq_of_lt (by omega)
    have h5 : 0 / b = 0 := Nat.zero_div b
    omega
  · have h1 : a + b - 1 = (a - 1) + b := by omega
    rw [h1, Nat.add_div_right _ hb]
    have h2 : (a - 1) / b ≤ a / b := Nat.div_le_div_right (by omega)
    omega

theorem mul_lt_of_lt_ceilDiv (i n t : Nat) (hn : 1 ≤ n) (h : i < ceilDiv t n) :
    i * n < t := by
  unfold ceilDiv at h
  have h1 : (i + 1) * n ≤ t + n - 1 := (Nat.le_div_iff_mul_le hn).mp h
  have h2 : (i + 1) * n = i * n + n := by ring
  omega

theorem ramFind_spec (pts os : Nat) (hp : 1 ≤ pts) (ho : 1 ≤ os) :
    ∀ fuel S, 1 ≤ S → S ≤ os → os < S + fuel →
      S ≤ ramFind pts os fuel S ∧ ramFind pts os fuel S ≤ os ∧
        1 ≤ pts / (os / ramFind pts os fuel S) := by
  intro fuel
  induction fuel with
  | zero => intro S h1 h2 h3; omega
  | succ fuel ih =>
    intro S h1 h2 h3
    rw [ramFind]
    by_cases hc : pts / (os / S) = 0
    · rw [if_pos hc]
      have hm1 : 1 ≤ os / S := by
        rw [Nat.le_div_iff_mul_le h1]; omega
      have hm2 : pts < os / S := by
        rcases Nat.lt_or_ge pts (os / S) with h | h
        · exact h
        · exact absurd hc (by have := Nat.div_pos h (by omega); omega)
      have hms : os / S * S ≤ os := Nat.div_mul_le_self os S
      have hS1 : S + 1 ≤ os := by
        have h2S : 2 * S ≤ os / S * S := Nat.mul_le_mul_right S (by omega)
        omega
      have := ih (S + 1) (by omega) hS1 (by omega)
      exact ⟨by omega, this.2.1, this.2.2⟩
    · rw [if_neg hc]
      exact ⟨le_rfl, h2, Nat.pos_of_ne_zero hc⟩

theorem ramFind_fuel_indep (pts os : Nat) (hp : 1 ≤ pts) (ho : 1 ≤ os) :
    ∀ fuel fuel' S, 1 ≤ S → S ≤ os → os < S + fuel → os < S + fuel' →
      ramFind pts os fuel S = ramFind pts os fuel' S := by
  intro fuel
  induction fuel with
  | zero => intro fuel' S h1 h2 h3 h4; omega
  | succ fuel ih =>
    intro fuel' S h1 h2 h3 h4
    cases fuel' with
    | zero => omega
    | succ fuel' =>
      rw [ramFind, ramFind]
      by_cases hc : pts / (os / S) = 0
      · rw [if_pos hc, if_pos hc]
        rcases Nat.lt_or_ge S os with hlt | hge
        · exact ih fuel' (S + 1) (by omega) (by omega) (by omega) (by omega)
        · exfalso
          have hSo : S = os := by omega
          have hone : os / S = 1 := by rw [hSo]; exact Nat.div_self (by omega)
          rw [hone, Nat.div_one] at hc
          omega
      · rw [if_neg hc, if_neg hc]

theorem buildChunks_length (n c total : Nat) : (buildChunks n c total).length = c := by
  simp [buildChunks]

theorem mem_buildChunks_width (n c total : Nat) (p : Nat × Nat)
    (hp : p ∈ buildChunks n c total) : p.2 - p.1 ≤ n := by
  simp only [buildChunks, List.mem_map, List.mem_range] at hp
  obtain ⟨i, hi, rfl⟩ := hp
  have h2 : (i + 1) * n = i * n + n := by ring
  simp only []
  omega

theorem contiguous_aux (n t : Nat) (hn : 1 ≤ n) (ht : 1 ≤ t) :
    ∀ c k, 1 ≤ c → k + c = ceilDiv t n →
      contiguousFromB (k * n)
        ((List.range' k c).map (fun i => (i * n, min ((i + 1) * n) t))) t = true := by
  intro c
  induction c with
  | zero => intro k h1 h2; omega
  | succ c ih =>
    intro k h1 h2
    rw [List.range'_succ]
    cases c with
    | zero =>
      have hk : k < ceilDiv t n := by omega
      have hlt : k * n < t := mul_lt_of_lt_ceilDiv k n t hn hk
      have hge : t ≤ (k + 1) * n := by
        have hle := le_mul_ceilDiv t n hn
        have h2' : k + 1 = ceilDiv t n := by omega
        rw [h2']
        exact hle
      have hmin : min ((k + 1) * n) t = t := by omega
      simp [contiguousFromB, hmin, hlt]
    | succ c' =>
      have hk1 : k + 1 < ceilDiv t n := by omega
      have hlt2 : (k + 1) * n < t := mul_lt_of_lt_ceilDiv (k + 1) n t hn hk1
      have hmin : min ((k + 1) * n) t = (k + 1) * n := by omega
      have hlt : k * n < (k + 1) * n := by
        have hexp : (k + 1) * n = k * n + n := by ring
        omega
      simp only [List.map_cons, contiguousFromB, hmin]
      rw [Bool.and_eq_true, Bool.and_eq_true]
      refine ⟨⟨by simp, by simp [hlt]⟩, ?_⟩
      exact ih (k + 1) (by omega) (by omega)

theorem contiguous_buildChunks (n t : Nat) (hn : 1 ≤ n) (ht : 1 ≤ t) :
    contiguousFromB 0 (buildChunks n (ceilDiv t n) t) t = true := by
  have h := contiguous_aux n t hn ht (ceilDiv t n) 0 (ceilDiv_pos t n ht hn) (by omega)
  rw [buildChunks, List.range_eq_range']
  simpa using h

theorem contiguous_le (L : List (Nat × Nat)) :
    ∀ s e, contiguousFromB s L e = true → s ≤ e := by
  induction L with
  | nil => intro s e h; simp [contiguousFromB] at h; omega
  | cons p rest ih =>
    intro s e h
    obtain ⟨lo, hi⟩ := p
    simp only [contiguousFromB, Bool.and_eq_true, beq_iff_eq, decide_eq_true_eq] at h
    have := ih hi e h.2
    omega

theorem contiguous_lower (L : List (Nat × Nat)) :
    ∀ s e, contiguousFromB s L e = true → ∀ p ∈ L, s ≤ p.1 ∧ p.1 < p.2 := by
  induction L with
  | nil => intro s e h p hp; simp at hp
  | cons q rest ih =>
    intro s e h p hp
    obtain ⟨lo, hi⟩ := q
    simp only [contiguousFromB, Bool.and_eq_true, beq_iff_eq, decide_eq_true_eq] at h
    rcases List.mem_cons.mp hp with h1 | h1
    · subst h1
      exact ⟨le_of_eq h.1.1, h.1.2⟩
    · have hlow := ih hi e h.2 p h1
      omega

theorem contiguous_pairwise (L : List (Nat × Nat)) :
    ∀ s e, contiguousFromB s L e = true → L.Pairwise (fun p q => p.2 ≤ q.1) := by
  induction L with
  | nil => intro s e h; exact List.Pairwise.nil
  | cons q rest ih =>
    intro s e h
    obtain ⟨lo, hi⟩ := q
    simp only [contiguousFromB, Bool.and_eq_true, beq_iff_eq, decide_eq_true_eq] at h
    refine List.Pairwise.cons ?_ (ih hi e h.2)
    intro p hp
    exact (contiguous_lower rest hi e h.2 p hp).1

theorem contiguous_union (L : List (Nat × Nat)) :
    ∀ s e, contiguousFromB s L e = true →
      ∀ k, (s ≤ k ∧ k < e) ↔ ∃ p, p ∈ L ∧ p.1 ≤ k ∧ k < p.2 := by
  induction L with
  | nil =>
    intro s e h k
    have hs : s = e := by simpa [contiguousFromB] using h
    constructor
    · intro hk; omega
    · rintro ⟨p, hp, -⟩; simp at hp
  | cons q rest ih =>
    intro s e h k
    obtain ⟨lo, hi⟩ := q
    simp only [contiguousFromB, Bool.and_eq_true, beq_iff_eq, decide_eq_true_eq] at h
    obtain ⟨⟨hs, hlh⟩, hrest⟩ := h
    have hhe : hi ≤ e := contiguous_le rest hi e hrest
    have hih := ih hi e hrest k
    constructor
    · intro hk
      by_cases hkh : k < hi
      · exact ⟨(lo, hi), List.mem_cons_self _ _, by omega, hkh⟩
      · obtain ⟨p, hp, hpk⟩ := hih.mp (by omega)
        exact ⟨p, List.mem_cons_of_mem _ hp, hpk⟩
    · rintro ⟨p, hp, hpk1, hpk2⟩
      rcases List.mem_cons.mp hp with h1 | h1
      · subst h1
        simp only [] at hpk1 hpk2
        omega
      · have hk := hih.mpr ⟨p, h1, hpk1, hpk2⟩
        omega

theorem isChunkPartition_of_contiguous (total : Nat) (L : List (Nat × Nat))
    (h : contiguousFromB 0 L total = true) : IsChunkPartition total L := by
  refine ⟨h, contiguous_pairwise L 0 total h, ?_⟩
  intro k
  have hu := contiguous_union L 0 total h k
  simpa using hu

theorem isChunkPartition_buildChunks (n t : Nat) (hn : 1 ≤ n) (ht : 1 ≤ t) :
    IsChunkPartition t (buildChunks n (ceilDiv t n) t) :=
  isChunkPartition_of_contiguous t _ (contiguous_buildChunks n t hn ht)

theorem get_batch_chunks_ram (od os rl : Nat) (ndc nsc nd ns : Option Nat)
    (dc sc : Option (List (Nat × Nat))) :
    get_batch_chunks od os ⟨some rl, ndc, nsc, nd, ns, dc, sc⟩ =
      (buildChunks (ceilDiv od (ceilDiv od (ram_n_dets rl os)))
         (ceilDiv od (ceilDiv od (ceilDiv od (ram_n_dets rl os)))) od,
       buildChunks (ceilDiv os (ram_n_samp_chunks rl os))
         (ceilDiv os (ceilDiv os (ram_n_samp_chunks rl os))) os) := rfl

theorem get_batch_chunks_ndc_fst (od os c : Nat) (nsc nd ns : Option Nat)
    (dc sc : Option (List (Nat × Nat))) :
    (get_batch_chunks od os ⟨none, some c, nsc, nd, ns, dc, sc⟩).1 =
      buildChunks (ceilDiv od c) (ceilDiv od (ceilDiv od c)) od := rfl

theorem get_batch_chunks_nd_fst (od os d : Nat) (nsc ns : Option Nat)
    (dc sc : Option (List (Nat × Nat))) :
    (get_batch_chunks od os ⟨none, none, nsc, some d, ns, dc, sc⟩).1 =
      buildChunks d (ceilDiv od d) od := rfl

theorem get_batch_chunks_nsc_snd (od os c : Nat) (ndc nd ns : Option Nat)
    (dc sc : Option (List (Nat × Nat))) :
    (get_batch_chunks od os ⟨none, ndc, some c, nd, ns, dc, sc⟩).2 =
      buildChunks (ceilDiv os c) (ceilDiv os (ceilDiv os c)) os := rfl

theorem get_batch_chunks_ns_snd (od os s : Nat) (ndc nd : Option Nat)
    (dc sc : Option (List (Nat × Nat))) :
    (get_batch_chunks od os ⟨none, ndc, none, nd, some s, dc, sc⟩).2 =
      buildChunks s (ceilDiv os s) os := rfl

theorem flatMap_pair_length {α β : Type} (ds : List α) (ss : List β) :
    (ds.flatMap (fun x => ss.map (fun y => (x, y)))).length = ds.length * ss.length := by
  induction ds with
  | nil => simp
  | cons head tail ih =>
    simp only [List.flatMap_cons, List.length_append, List.length_map, ih, List.length_cons]
    ring

theorem flatMap_pair_getElem {α β : Type} (ds : List α) (ss : List β) (i j : Nat)
    (d : α) (s : β) (hd : ds[i]? = some d) (hs : ss[j]? = some s) :
    (ds.flatMap (fun x => ss.map (fun y => (x, y))))[i * ss.length + j]? = some (d, s) := by
  induction ds generalizing i with
  | nil => simp at hd
  | cons head tail ih =>
    have hj : j < ss.length := by
      rcases List.getElem?_eq_some.mp hs with ⟨h, -⟩
      exact h
    cases i with
    | zero =>
      simp only [List.getElem?_cons_zero, Option.some.injEq] at hd
      subst hd
      simp only [List.flatMap_cons, Nat.zero_mul, Nat.zero_add]
      rw [List.getElem?_append_left (by simpa using hj)]
      simp [hs]
    | succ i' =>
      simp only [List.getElem?_cons_succ] at hd
      simp only [List.flatMap_cons]
      rw [List.getElem?_append_right (by simp; nlinarith [Nat.zero_le (i' * ss.length)])]
      have harith : (i' + 1) * ss.length + j - ss.length = i' * ss.length + j := by
        have h2 : (i' + 1) * ss.length = i' * ss.length + ss.length := by ring
        omega
      simp only [List.length_map, harith]
      exact ih i' hd

theorem mem_flatMap_pair {α β : Type} (ds : List α) (ss : List β) (p : α × β)
    (hp : p ∈ ds.flatMap (fun x => ss.map (fun y => (x, y)))) :
    p.1 ∈ ds ∧ p.2 ∈ ss := by
  simp only [List.mem_flatMap, List.mem_map] at hp
  obtain ⟨x, hx, y, hy, rfl⟩ := hp
  exact ⟨hx, hy⟩

/-- C9: when no chunking control is supplied at all, `get_batch` yields
exactly one chunk, the full observation
`(range(0, obs_dets), (0, obs_samps))`. -/
theorem c9_default_single_chunk (obs_dets obs_samps : Nat) :
    get_batch obs_dets obs_samps noControls = [((0, obs_dets), (0, obs_samps))] := rfl

/-- C3: for `total_dets = 1000`, `total_samps = 10000` and `n_dets = 300`
(no other control), `get_batch` yields exactly the detector ranges
`[0,300), [300,600), [600,900), [900,1000)` in that order, each paired with
the single sample range `[0,10000)`. -/
theorem c3_n_dets_300_plan :
    get_batch 1000 10000 ⟨none, none, none, some 300, none, none, none⟩ =
      [((0, 300), (0, 10000)), ((300, 600), (0, 10000)),
       ((600, 900), (0, 10000)), ((900, 1000), (0, 10000))] := by decide

/-- C4: for every combination of controls, the chunk sequence of `get_batch`
is exactly the Cartesian product of the detector chunk list and the sample
chunk list, detector ranges as the outer loop and sample ranges as the inner
loop: the sequence has length `|det_chunks| * |samp_chunks|` and its entry at
position `i * |samp_chunks| + j` is the pair of detector chunk `i` and
sample chunk `j`. -/
theorem c4_cartesian_order (obs_dets obs_samps : Nat) (a : ChunkArgs) (i j : Nat)
    (d s : Nat × Nat)
    (hd : (get_batch_chunks obs_dets obs_samps a).1[i]? = some d)
    (hs : (get_batch_chunks obs_dets obs_samps a).2[j]? = some s) :
    (get_batch obs_dets obs_samps a).length =
      (get_batch_chunks obs_dets obs_samps a).1.length *
        (get_batch_chunks obs_dets obs_samps a).2.length ∧
    (get_batch obs_dets obs_samps a)[i *
        (get_batch_chunks obs_dets obs_samps a).2.length + j]? = some (d, s) :=
  ⟨flatMap_pair_length _ _, flatMap_pair_getElem _ _ i j d s hd hs⟩

/-- Witness for C4 at `obs_dets = 1000`, `obs_samps = 10000`,
`n_dets = 300`, `i = 1`, `j = 0`. -/
theorem c4_witness :
    (get_batch 1000 10000 ⟨none, none, none, some 300, none, none, none⟩).length =
      (get_batch_chunks 1000 10000 ⟨none, none, none, some 300, none, none, none⟩).1.length *
        (get_batch_chunks 1000 10000 ⟨none, none, none, some 300, none, none, none⟩).2.length ∧
    (get_batch 1000 10000 ⟨none, none, none, some 300, none, none, none⟩)[1 *
        (get_batch_chunks 1000 10000 ⟨none, none, none, some 300, none, none, none⟩).2.length +
        0]? = some ((300, 600), (0, 10000)) :=
  c4_cartesian_order 1000 10000 ⟨none, none, none, some 300, none, none, none⟩ 1 0
    (300, 600) (0, 10000) (by decide) (by decide)

/-- C1: `ram_limit` overrides every other control; otherwise an explicit
chunk count (`n_det_chunks` / `n_samp_chunks`) overrides an explicit
per-chunk size (`n_dets` / `n_samps`), which overrides an explicit chunk
list (`det_chunks` / `samp_chunks`); and the detector chunk list depends
only on the detector controls (and `ram_limit`) while the sample chunk list
depends only on the sample controls (and `ram_limit`). -/
theorem c1_precedence_and_independence (obs_dets obs_samps : Nat) (a a' : ChunkArgs) :
    (∀ rl, a.ram_limit = some rl →
      get_batch_chunks obs_dets obs_samps a =
        get_batch_chunks obs_dets obs_samps ⟨some rl, none, none, none, none, none, none⟩) ∧
    (∀ c, a.ram_limit = none → a.n_det_chunks = some c →
      (get_batch_chunks obs_dets obs_samps a).1 =
        (get_batch_chunks obs_dets obs_samps
          ⟨none, some c, none, none, none, none, none⟩).1) ∧
    (∀ d, a.ram_limit = none → a.n_det_chunks = none → a.n_dets = some d →
      (get_batch_chunks obs_dets obs_samps a).1 =
        (get_batch_chunks obs_dets obs_samps
          ⟨none, none, none, some d, none, none, none⟩).1) ∧
    (∀ c, a.ram_limit = none → a.n_samp_chunks = some c →
      (get_batch_chunks obs_dets obs_samps a).2 =
        (get_batch_chunks obs_dets obs_samps
          ⟨none, none, some c, none, none, none, none⟩).2) ∧
    (∀ s, a.ram_limit = none → a.n_samp_chunks = none → a.n_samps = some s →
      (get_batch_chunks obs_dets obs_samps a).2 =
        (get_batch_chunks obs_dets obs_samps
          ⟨none, none, none, none, some s, none, none⟩).2) ∧
    (a.ram_limit = a'.ram_limit → a.n_det_chunks = a'.n_det_chunks →
      a.n_dets = a'.n_dets → a.det_chunks = a'.det_chunks →
      (get_batch_chunks obs_dets obs_samps a).1 =
        (get_batch_chunks obs_dets obs_samps a').1) ∧
    (a.ram_limit = a'.ram_limit → a.n_samp_chunks = a'.n_samp_chunks →
      a.n_samps = a'.n_samps → a.samp_chunks = a'.samp_chunks →
      (get_batch_chunks obs_dets obs_samps a).2 =
        (get_batch_chunks obs_dets obs_samps a').2) := by
  obtain ⟨r, ndc, nsc, nd, ns, dc, sc⟩ := a
  obtain ⟨r', ndc', nsc', nd', ns', dc', sc'⟩ := a'
  refine ⟨?_, ?_, ?_, ?_, ?_, ?_, ?_⟩
  · intro rl h
    dsimp only at h
    subst h
    rw [get_batch_chunks_ram, get_batch_chunks_ram]
  · intro c h1 h2
    dsimp only at h1 h2
    subst h1
    subst h2
    rw [get_batch_chunks_ndc_fst, get_batch_chunks_ndc_fst]
  · intro d h1 h2 h3
    dsimp only at h1 h2 h3
    subst h1
    subst h2
    subst h3
    rw [get_batch_chunks_nd_fst, get_batch_chunks_nd_fst]
  · intro c h1 h2
    dsimp only at h1 h2
    subst h1
    subst h2
    rw [get_batch_chunks_nsc_snd, get_batch_chunks_nsc_snd]
  · intro s h1 h2 h3
    dsimp only at h1 h2 h3
    subst h1
    subst h2
    subst h3
    rw [get_batch_chunks_ns_snd, get_batch_chunks_ns_snd]
  · intro h1 h2 h3 h4
    dsimp only at h1 h2 h3 h4
    subst h1
    subst h2
    subst h3
    subst h4
    cases r <;> rfl
  · intro h1 h2 h3 h4
    dsimp only at h1 h2 h3 h4
    subst h1
    subst h2
    subst h3
    subst h4
    cases r <;> rfl

/-- Witness for C1 at `obs_dets = 10`, `obs_samps = 20`, with
`n_det_chunks = 3` overriding `n_dets = 4` and `det_chunks = [(0, 1)]`. -/
theorem c1_witness :
    (get_batch_chunks 10 20
        ⟨none, some 3, some 2, some 4, some 5, some [(0, 1)], some [(2, 3)]⟩).1 =
      (get_batch_chunks 10 20 ⟨none, some 3, none, none, none, none, none⟩).1 :=
  (c1_precedence_and_independence 10 20
    ⟨none, some 3, some 2, some 4, some 5, some [(0, 1)], some [(2, 3)]⟩
    ⟨none, some 3, some 2, some 4, some 5, some [(0, 1)], some [(2, 3)]⟩).2.1 3 rfl rfl

/-- C5: the `ram_limit` sizing search terminates: for `ram_limit ≥ 4`
(so the per-point budget `ram_limit // 4` is at least 1) and any total
sample count ≥ 1, the loop incrementing the sample chunk count from 1
reaches a positive per-chunk detector count within `obs_samps` iterations,
the final sample chunk count is at most `obs_samps`, and giving the loop
any more fuel does not change the result. -/
theorem c5_ram_search_terminates (ram_limit obs_samps : Nat)
    (hr : 4 ≤ ram_limit) (ho : 1 ≤ obs_samps) :
    1 ≤ ram_n_samp_chunks ram_limit obs_samps ∧
    ram_n_samp_chunks ram_limit obs_samps ≤ obs_samps ∧
    1 ≤ ram_n_dets ram_limit obs_samps ∧
    ∀ fuel, obs_samps ≤ fuel →
      ramFind (ram_limit / 4) obs_samps fuel 1 = ram_n_samp_chunks ram_limit obs_samps := by
  have hp : 1 ≤ ram_limit / 4 := by
    rw [Nat.le_div_iff_mul_le (by omega)]
    omega
  have hspec := ramFind_spec (ram_limit / 4) obs_samps hp ho obs_samps 1 le_rfl ho (by omega)
  refine ⟨hspec.1, hspec.2.1, hspec.2.2, ?_⟩
  intro fuel hf
  exact ramFind_fuel_indep (ram_limit / 4) obs_samps hp ho fuel obs_samps 1 le_rfl ho
    (by omega) (by omega)

/-- Witness for C5 at `ram_limit = 4`, `obs_samps = 3` (also checking fuel
robustness at fuel 5). -/
theorem c5_witness :
    1 ≤ ram_n_samp_chunks 4 3 ∧ ram_n_samp_chunks 4 3 ≤ 3 ∧ 1 ≤ ram_n_dets 4 3 ∧
      ramFind (4 / 4) 3 5 1 = ram_n_samp_chunks 4 3 :=
  ⟨(c5_ram_search_terminates 4 3 (by decide) (by decide)).1,
   (c5_ram_search_terminates 4 3 (by decide) (by decide)).2.1,
   (c5_ram_search_terminates 4 3 (by decide) (by decide)).2.2.1,
   (c5_ram_search_terminates 4 3 (by decide) (by decide)).2.2.2 5 (by decide)⟩

/-- C8: whenever the detector chunks are derived from `n_det_chunks`,
`n_dets` or `ram_limit` (rather than supplied as an explicit list), they
form a contiguous, pairwise-disjoint, increasing tiling of
`[0, obs_dets)`; analogously for sample chunks over `[0, obs_samps)`. -/
theorem c8_partition_invariant (obs_dets obs_samps : Nat) (a : ChunkArgs)
    (hod : 1 ≤ obs_dets) (hos : 1 ≤ obs_samps) :
    (∀ c, a.ram_limit = none → a.n_det_chunks = some c → 1 ≤ c →
      IsChunkPartition obs_dets (get_batch_chunks obs_dets obs_samps a).1) ∧
    (∀ d, a.ram_limit = none → a.n_det_chunks = none → a.n_dets = some d → 1 ≤ d →
      IsChunkPartition obs_dets (get_batch_chunks obs_dets obs_samps a).1) ∧
    (∀ rl, a.ram_limit = some rl → 4 ≤ rl →
      IsChunkPartition obs_dets (get_batch_chunks obs_dets obs_samps a).1) ∧
    (∀ c, a.ram_limit = none → a.n_samp_chunks = some c → 1 ≤ c →
      IsChunkPartition obs_samps (get_batch_chunks obs_dets obs_samps a).2) ∧
    (∀ s, a.ram_limit = none → a.n_samp_chunks = none → a.n_samps = some s → 1 ≤ s →
      IsChunkPartition obs_samps (get_batch_chunks obs_dets obs_samps a).2) ∧
    (∀ rl, a.ram_limit = some rl → 4 ≤ rl →
      IsChunkPartition obs_samps (get_batch_chunks obs_dets obs_samps a).2) := by
  obtain ⟨r, ndc, nsc, nd, ns, dc, sc⟩ := a
  refine ⟨?_, ?_, ?_, ?_, ?_, ?_⟩
  · intro c h1 h2 hc
    dsimp only at h1 h2
    subst h1
    subst h2
    rw [get_batch_chunks_ndc_fst]
    exact isChunkPartition_buildChunks (ceilDiv obs_dets c) obs_dets
      (ceilDiv_pos obs_dets c hod hc) hod
  · intro d h1 h2 h3 hd
    dsimp only at h1 h2 h3
    subst h1
    subst h2
    subst h3
    rw [get_batch_chunks_nd_fst]
    exact isChunkPartition_buildChunks d obs_dets hd hod
  · intro rl h1 hrl
    dsimp only at h1
    subst h1
    have hp : 1 ≤ rl / 4 := by
      rw [Nat.le_div_iff_mul_le (by omega)]
      omega
    have hspec := ramFind_spec (rl / 4) obs_samps hp hos obs_samps 1 le_rfl hos (by omega)
    have hndr : 1 ≤ ram_n_dets rl obs_samps := hspec.2.2
    rw [get_batch_chunks_ram]
    exact isChunkPartition_buildChunks (ceilDiv obs_dets (ceilDiv obs_dets
      (ram_n_dets rl obs_samps))) obs_dets
      (ceilDiv_pos obs_dets _ hod (ceilDiv_pos obs_dets _ hod hndr)) hod
  · intro c h1 h2 hc
    dsimp only at h1 h2
    subst h1
    subst h2
    rw [get_batch_chunks_nsc_snd]
    exact isChunkPartition_buildChunks (ceilDiv obs_samps c) obs_samps
      (ceilDiv_pos obs_samps c hos hc) hos
  · intro s h1 h2 h3 hs
    dsimp only at h1 h2 h3
    subst h1
    subst h2
    subst h3
    rw [get_batch_chunks_ns_snd]
    exact isChunkPartition_buildChunks s obs_samps hs hos
  · intro rl h1 hrl
    dsimp only at h1
    subst h1
    have hp : 1 ≤ rl / 4 := by
      rw [Nat.le_div_iff_mul_le (by omega)]
      omega
    have hspec := ramFind_spec (rl / 4) obs_samps hp hos obs_samps 1 le_rfl hos (by omega)
    have hS : 1 ≤ ram_n_samp_chunks rl obs_samps := hspec.1
    rw [get_batch_chunks_ram]
    exact isChunkPartition_buildChunks (ceilDiv obs_samps
      (ram_n_samp_chunks rl obs_samps)) obs_samps
      (ceilDiv_pos obs_samps _ hos hS) hos

/-- Witness for C8 at `obs_dets = 2`, `obs_samps = 3`, `ram_limit = 4`. -/
theorem c8_witness :
    IsChunkPartition 2
      (get_batch_chunks 2 3 ⟨some 4, none, none, none, none, none, none⟩).1 :=
  (c8_partition_invariant 2 3 ⟨some 4, none, none, none, none, none, none⟩
    (by decide) (by decide)).2.2.1 4 rfl (by decide)

/-- Counterexample to C2 as stated: at `obs_dets = 1`, `obs_samps = 3`,
`ram_limit = 4`, the search exits with `n_samp_chunks = 2` using the floor
width `3 // 2 = 1`, but the chunks are built with the ceiling width
`ceil(3 / 2) = 2`, so the first yielded chunk `((0,1), (0,2))` costs
`1 * 2 * 4 = 8 > 4`. -/
theorem c2_counterexample :
    ¬ ∀ p ∈ get_batch 1 3 ⟨some 4, none, none, none, none, none, none⟩,
        chunkCost p ≤ 4 := by decide

/-- C2 (amended): under `ram_limit`-based sizing, because the search bounds
the floor width `obs_samps // n_samp_chunks` while chunks are built with the
ceiling width, each yielded chunk is guaranteed only
`len(det_chunk) * (samp_hi - samp_lo) * 4 ≤ 2 * ram_limit` (tight at the
counterexample above), not `≤ ram_limit`. -/
theorem c2_amended_ram_cost (obs_dets obs_samps rl : Nat) (a : ChunkArgs)
    (hod : 1 ≤ obs_dets) (hos : 1 ≤ obs_samps) (hrl : 4 ≤ rl)
    (hram : a.ram_limit = some rl) :
    ∀ p ∈ get_batch obs_dets obs_samps a, chunkCost p ≤ 2 * rl := by
  obtain ⟨r, ndc, nsc, nd, ns, dc, sc⟩ := a
  dsimp only at hram
  subst hram
  intro p hp
  have hmem := mem_flatMap_pair
    (get_batch_chunks obs_dets obs_samps ⟨some rl, ndc, nsc, nd, ns, dc, sc⟩).1
    (get_batch_chunks obs_dets obs_samps ⟨some rl, ndc, nsc, nd, ns, dc, sc⟩).2 p hp
  rw [get_batch_chunks_ram] at hmem
  have hp4 : 1 ≤ rl / 4 := by
    rw [Nat.le_div_iff_mul_le (by omega)]
    omega
  have hspec := ramFind_spec (rl / 4) obs_samps hp4 hos obs_samps 1 le_rfl hos (by omega)
  have hS1 : 1 ≤ ram_n_samp_chunks rl obs_samps := hspec.1
  have hSo : ram_n_samp_chunks rl obs_samps ≤ obs_samps := hspec.2.1
  have hndr : 1 ≤ ram_n_dets rl obs_samps := hspec.2.2
  have hm1 : 1 ≤ ram_n_samps rl obs_samps := by
    unfold ram_n_samps
    rw [Nat.le_div_iff_mul_le hS1]
    omega
  have hwd : p.1.2 - p.1.1 ≤ ceilDiv obs_dets (ceilDiv obs_dets (ram_n_dets rl obs_samps)) :=
    mem_buildChunks_width _ _ _ _ hmem.1
  have hws : p.2.2 - p.2.1 ≤ ceilDiv obs_samps (ram_n_samp_chunks rl obs_samps) :=
    mem_buildChunks_width _ _ _ _ hmem.2
  have hAle : ceilDiv obs_dets (ceilDiv obs_dets (ram_n_dets rl obs_samps)) ≤
      ram_n_dets rl obs_samps :=
    ceilDiv_ceilDiv_le obs_dets (ram_n_dets rl obs_samps) hod hndr
  have hBle : ceilDiv obs_samps (ram_n_samp_chunks rl obs_samps) ≤
      ram_n_samps rl obs_samps + 1 :=
    ceilDiv_le_div_add_one obs_samps (ram_n_samp_chunks rl obs_samps) hS1
  have h1 : (p.1.2 - p.1.1) * (p.2.2 - p.2.1) ≤
      ram_n_dets rl obs_samps * (ram_n_samps rl obs_samps + 1) :=
    Nat.mul_le_mul (le_trans hwd hAle) (le_trans hws hBle)
  have h2 : ram_n_dets rl obs_samps * (ram_n_samps rl obs_samps + 1) =
      ram_n_dets rl obs_samps * ram_n_samps rl obs_samps + ram_n_dets rl obs_samps := by
    ring
  have hprod : ram_n_dets rl obs_samps * ram_n_samps rl obs_samps ≤ rl / 4 :=
    Nat.div_mul_le_self (rl / 4) (ram_n_samps rl obs_samps)
  have hndrle : ram_n_dets rl obs_samps ≤ rl / 4 :=
    Nat.div_le_self (rl / 4) (ram_n_samps rl obs_samps)
  have h3 : chunkCost p ≤ (ram_n_dets rl obs_samps * ram_n_samps rl obs_samps +
      ram_n_dets rl obs_samps) * 4 := by
    unfold chunkCost
    exact Nat.mul_le_mul_right 4 (h2 ▸ h1)
  have h4 : rl / 4 * 4 ≤ rl := Nat.div_mul_le_self rl 4
  omega

/-- Witness for the amended C2 at the counterexample input: the first chunk
costs 8 ≤ 2 * 4. -/
theorem c2_witness :
    chunkCost ((0, 1), (0, 2)) ≤ 2 * 4 :=
  c2_amended_ram_cost 1 3 4 ⟨some 4, none, none, none, none, none, none⟩ (by decide)
    (by decide) (by decide) rfl ((0, 1), (0, 2)) (by decide)

theorem pySlice4_wrap (x : List Char) :
    pySlice4 ("and ".data ++ (x ++ "and ".data)) = x := by
  unfold pySlice4
  have hdrop : ("and ".data ++ (x ++ "and ".data)).drop 4 = x ++ "and ".data := by
    have h4 : ("and ".data).length = 4 := rfl
    conv_lhs => rw [← h4]
    exact List.drop_left _ _
  rw [hdrop]
  have h2 : (x ++ "and ".data).length - 4 = x.length := by
    simp [List.length_append]
  rw [h2]
  exact List.take_left x "and ".data

theorem sep_eq : " and ".data = ' ' :: "and ".data := rfl

/-- C6: the driver loop of `main` in `make_level3_hk.py` catches any
per-observation failure, logs it, and continues with the next observation:
for every observation list and every behaviour of the per-observation body,
the loop visits every observation in order (so observations after a failing
one are still processed and the loop never aborts), and each observation's
logged outcome records exactly whether its own body succeeded. -/
theorem c6_loop_continues_after_failures {α : Type}
    (process : α → Except String Unit) (obs_list : List α) :
    (main_obs_loop process obs_list).map Prod.fst = obs_list ∧
    main_obs_loop process obs_list =
      obs_list.map (fun obs => (obs, (process obs).isOk)) := by
  induction obs_list with
  | nil => exact ⟨rfl, rfl⟩
  | cons o rest ih =>
    cases h : process o with
    | ok v =>
      refine ⟨?_, ?_⟩
      · simp only [main_obs_loop, h, List.map_cons]
        rw [ih.1]
      · simp only [main_obs_loop, h, List.map_cons]
        rw [ih.2]
        rfl
    | error e =>
      refine ⟨?_, ?_⟩
      · simp only [main_obs_loop, h, List.map_cons]
        rw [ih.1]
      · simp only [main_obs_loop, h, List.map_cons]
        rw [ih.2]
        rfl

/-- Counterexample to C10 as stated: with only `query_text = "q"` supplied,
the built query is `"q "` (trailing space) rather than the exact
conjunction `"q"`: the slice `[4:-4]` removes the four characters `"and "`
from the front but only `"and "` (not `" and "`) from the back. -/
theorem c10_counterexample :
    tot_query none (some "q".data) none none ≠
      tot_query_spec none (some "q".data) none none := by decide

/-- C10 (amended): if `obs_id` is supplied the query text is exactly
`obs_id=='<obs_id>'` with all other filters ignored; otherwise it is the
`" and "`-conjunction of exactly the supplied filters, in order
`query_text`, `timestamp>=min_ctime`, `timestamp<=max_ctime`, followed by
one trailing space whenever at least one filter is supplied; and `"1"` when
none is supplied. -/
theorem c10_amended_query (obs_id query_text min_ctime max_ctime : Option (List Char)) :
    tot_query obs_id query_text min_ctime max_ctime =
      tot_query_amended obs_id query_text min_ctime max_ctime := by
  cases obs_id with
  | some oid => rfl
  | none =>
    cases query_text with
    | none =>
      cases min_ctime with
      | none =>
        cases max_ctime with
        | none => decide
        | some M =>
          simp only [tot_query, tot_query_amended, queryFilters, joinAnd]
          have h : "and ".data ++ "timestamp<=".data ++ M ++ " and ".data =
              "and ".data ++ ((("timestamp<=".data ++ M) ++ [' ']) ++ "and ".data) := by
            simp [sep_eq, List.append_assoc]
          rw [h, pySlice4_wrap]
          simp [List.append_assoc]
      | some m =>
        cases max_ctime with
        | none =>
          simp only [tot_query, tot_query_amended, queryFilters, joinAnd]
          have h : "and ".data ++ "timestamp>=".data ++ m ++ " and ".data =
              "and ".data ++ ((("timestamp>=".data ++ m) ++ [' ']) ++ "and ".data) := by
            simp [sep_eq, List.append_assoc]
          rw [h, pySlice4_wrap]
          simp [List.append_assoc]
        | some M =>
          simp only [tot_query, tot_query_amended, queryFilters, joinAnd]
          have h : "and ".data ++ "timestamp>=".data ++ m ++ " and ".data ++
                "timestamp<=".data ++ M ++ " and ".data =
              "and ".data ++ ((("timestamp>=".data ++ m ++ " and ".data ++
                "timestamp<=".data ++ M) ++ [' ']) ++ "and ".data) := by
            simp [sep_eq, List.append_assoc]
          rw [h, pySlice4_wrap]
          simp [List.append_assoc]
    | some q =>
      cases min_ctime with
      | none =>
        cases max_ctime with
        | none =>
          simp only [tot_query, tot_query_amended, queryFilters, joinAnd]
          have h : "and ".data ++ q ++ " and ".data =
              "and ".data ++ ((q ++ [' ']) ++ "and ".data) := by
            simp [sep_eq, List.append_assoc]
          rw [h, pySlice4_wrap]
          simp
        | some M =>
          simp only [tot_query, tot_query_amended, queryFilters, joinAnd]
          have h : "and ".data ++ q ++ " and ".data ++
                "timestamp<=".data ++ M ++ " and ".data =
              "and ".data ++ (((q ++ " and ".data ++
                "timestamp<=".data ++ M) ++ [' ']) ++ "and ".data) := by
            simp [sep_eq, List.append_assoc]
          rw [h, pySlice4_wrap]
          simp [List.append_assoc]
      | some m =>
        cases max_ctime with
        | none =>
          simp only [tot_query, tot_query_amended, queryFilters, joinAnd]
          have h : "and ".data ++ q ++ " and ".data ++
                "timestamp>=".data ++ m ++ " and ".data =
              "and ".data ++ (((q ++ " and ".data ++
                "timestamp>=".data ++ m) ++ [' ']) ++ "and ".data) := by
            simp [sep_eq, List.append_assoc]
          rw [h, pySlice4_wrap]
          simp [List.append_assoc]
        | some M =>
          simp only [tot_query, tot_query_amended, queryFilters, joinAnd]
          have h : "and ".data ++ q ++ " and ".data ++
                "timestamp>=".data ++ m ++ " and ".data ++
                "timestamp<=".data ++ M ++ " and ".data =
              "and ".data ++ (((q ++ " and ".data ++
                "timestamp>=".data ++ m ++ " and ".data ++
                "timestamp<=".data ++ M) ++ [' ']) ++ "and ".data) := by
            simp [sep_eq, List.append_assoc]
          rw [h, pySlice4_wrap]
          simp [List.append_assoc]

